import Mathlib

/-!
Verification development for the radicle-peruse repository: a shallow
embedding of its path algebra, history/browser abstraction, ancestry
last-touch index and diff translation, together with theorems settling
the specification claims against the embedded code.

Rust text is embedded as `List Char`; fallible constructors return
`Except`; external repository-engine calls (git2) are passed in as
explicit parameters of the embedded functions.
-/

set_option autoImplicit false

namespace Peruse

universe u v

/-- Embedding of the `nonempty` crate's `NonEmpty<T>`: a head plus a tail,
as used by `src/src/nonempty.rs` and `src/src/vcs.rs`. -/
structure NonEmpty (α : Type u) where
  head : α
  tail : List α
  deriving DecidableEq, Repr

namespace NonEmpty

variable {α : Type u}

/-- The underlying list `head :: tail`. -/
def toList (ne : NonEmpty α) : List α := ne.head :: ne.tail

/-- `NonEmpty::push`: append an element at the end. -/
def push (ne : NonEmpty α) (a : α) : NonEmpty α := ⟨ne.head, ne.tail ++ [a]⟩

/-- `NonEmpty::first`. -/
def first (ne : NonEmpty α) : α := ne.head

/-- `NonEmpty::from_slice`, failing on the empty slice. -/
def fromList : List α → Option (NonEmpty α)
  | [] => none
  | a :: as => some ⟨a, as⟩

/-- The `nonempty` crate's `split`: `(first, middle, last)`, where for a
singleton the first and last components coincide. -/
def split : NonEmpty α → α × List α × α
  | ⟨h, []⟩ => (h, [], h)
  | ⟨h, x :: xs⟩ => (h, (x :: xs).dropLast, (x :: xs).getLast (by simp))

@[simp] theorem toList_push (ne : NonEmpty α) (a : α) :
    (ne.push a).toList = ne.toList ++ [a] := by
  simp [toList, push]

@[simp] theorem fromList_nil : (fromList ([] : List α)) = none := rfl

@[simp] theorem fromList_cons (a : α) (as : List α) :
    fromList (a :: as) = some ⟨a, as⟩ := rfl

end NonEmpty

/-- Embedding of `split_last` from `src/src/nonempty.rs`: split a non-empty
list into the components before the last one and the last one, with the
source's special case collapsing `first == last && middle.is_empty()` to an
empty first component. -/
def split_last {α : Type u} [DecidableEq α] (ne : NonEmpty α) : List α × α :=
  let s := ne.split
  let f := s.1
  let middle := s.2.1
  let l := s.2.2
  if f = l ∧ middle = [] then ([], l)
  else (f :: middle, l)

/-- The last element of a non-empty list: the last tail element, or the
head when the tail is empty. Used to state properties of `split_last`. -/
def NonEmpty.lastOf {α : Type u} (ne : NonEmpty α) : α :=
  ne.tail.getLast?.getD ne.head

/-- Errors of the file-system path algebra.

Modelled from the spec: the `file_system::error` module is not under `src/`;
its values are used by `src/src/file_system/path/mod.rs` as `EMPTY_LABEL`,
`label_has_slash(..)` and `EMPTY_PATH`, matching the spec's
`InvalidLabel` (empty label or embedded separator) and `EmptyPath` kinds. -/
inductive FsError where
  | emptyLabel : FsError
  | labelHasSlash : List Char → FsError
  | emptyPath : FsError
  deriving DecidableEq, Repr

/-- Embedding of `Label` (`src/src/file_system/path/mod.rs`): a text
component with a hidden flag. -/
structure Label where
  label : List Char
  hidden : Bool
  deriving DecidableEq, Repr

namespace Label

/-- `Label::root()`, i.e. the label `"~"`. -/
def root : Label := ⟨['~'], false⟩

/-- `TryFrom<&str> for Label`: fails on the empty string or a string
containing a slash. -/
def tryFrom (item : List Char) : Except FsError Label :=
  if item = [] then .error .emptyLabel
  else if '/' ∈ item then .error (.labelHasSlash item)
  else .ok ⟨item, false⟩

end Label

/-- Embedding of `Path`: a non-empty sequence of labels
(`src/src/file_system/path/mod.rs`). -/
structure Path where
  labels : NonEmpty Label
  deriving DecidableEq, Repr

/-- Rust `str::trim_end_matches('/')`: remove every trailing slash. -/
def trimEndSlashes (s : List Char) : List Char :=
  (s.reverse.dropWhile (fun c => c = '/')).reverse

/-- Rust `str::split('/')`: split on slashes, keeping empty components;
the result is always non-empty (splitting the empty string yields `[[]]`). -/
def splitSlash : List Char → List (List Char)
  | [] => [[]]
  | c :: cs =>
    match splitSlash cs with
    | [] => [[c]]
    | g :: gs => if c = '/' then [] :: g :: gs else (c :: g) :: gs

namespace Path

/-- `Path::new`. -/
def new (l : Label) : Path := ⟨⟨l, []⟩⟩

/-- `Path::root()`. -/
def root : Path := new Label.root

/-- `Path::push`. -/
def push (p : Path) (l : Label) : Path := ⟨p.labels.push l⟩

/-- `Path::split_last`, delegating to `split_last` of `nonempty.rs`. -/
def splitLast (p : Path) : List Label × Label := split_last p.labels

/-- The validation loop of `TryFrom<&str> for Path`: run `Label::try_from`
on each component, stopping at the first error (the `?` operator). -/
def collectLabels : List (List Char) → Except FsError (List Label)
  | [] => .ok []
  | c :: cs =>
    match Label.tryFrom c with
    | .error e => .error e
    | .ok l =>
      match collectLabels cs with
      | .error e => .error e
      | .ok ls => .ok (l :: ls)

/-- `TryFrom<&str> for Path`: trim trailing slashes, split on `/`, validate
each component as a `Label`, then require a non-empty component list. -/
def tryFrom (item : List Char) : Except FsError Path :=
  match collectLabels (splitSlash (trimEndSlashes item)) with
  | .error e => .error e
  | .ok path =>
    match NonEmpty.fromList path with
    | none => .error .emptyPath
    | some ne => .ok ⟨ne⟩

/-- `Display for Path`: each label of the split-last first component is
written followed by a slash, then the last label. -/
def toText (p : Path) : List Char :=
  (p.splitLast.1).foldr (fun l acc => l.label ++ '/' :: acc) p.splitLast.2.label

/-- The loop of `TryFrom<PathBuf> for Path`: push one validated label per
path component, stopping at the first error. -/
def fromPathBufAux : Path → List (List Char) → Except FsError Path
  | p, [] => .ok p
  | p, c :: cs =>
    match Label.tryFrom c with
    | .error e => .error e
    | .ok l => fromPathBufAux (p.push l) cs

/-- `TryFrom<PathBuf> for Path`: start from the root path and push one
validated label per path component. -/
def fromPathBuf (comps : List (List Char)) : Except FsError Path :=
  fromPathBufAux Path.root comps

end Path

/-! ## Characterisation of `split_last` -/

theorem dropLast_cons_ne_nil {α : Type u} (a : α) {l : List α} (h : l ≠ []) :
    (a :: l).dropLast = a :: l.dropLast := by
  cases l with
  | nil => exact absurd rfl h
  | cons x xs => rfl

/-- `split_last` returns an empty first component exactly when the list is a
singleton or consists of two equal elements; otherwise it returns all
elements before the last one, followed by the last one. -/
theorem split_last_eq {α : Type u} [DecidableEq α] (ne : NonEmpty α) :
    split_last ne =
      (if ne.tail = [] ∨ ne.tail = [ne.head] then [] else ne.toList.dropLast,
       ne.lastOf) := by
  obtain ⟨h, t⟩ := ne
  cases t with
  | nil => simp [split_last, NonEmpty.split, NonEmpty.lastOf, NonEmpty.toList]
  | cons x xs =>
    cases xs with
    | nil =>
      by_cases hx : h = x
      · subst hx
        simp [split_last, NonEmpty.split, NonEmpty.lastOf, NonEmpty.toList]
      · have hx2 : ¬(x = h) := fun hc => hx hc.symm
        simp [split_last, NonEmpty.split, NonEmpty.lastOf, NonEmpty.toList,
          hx, hx2]
    | cons y ys =>
      have hne : (y :: ys : List α) ≠ [] := by simp
      have hlast : (x :: y :: ys).getLast (by simp) =
          (y :: ys).getLast (by simp) := by
        simp [List.getLast]
      simp only [split_last, NonEmpty.split, NonEmpty.lastOf, NonEmpty.toList]
      have hmid : (x :: y :: ys).dropLast = x :: (y :: ys).dropLast := by
        simp [dropLast_cons_ne_nil _ hne]
      rw [hmid]
      have hcond : ¬(h = (x :: y :: ys).getLast (by simp)
          ∧ x :: (y :: ys).dropLast = []) := by
        intro hc
        exact absurd hc.2 (by simp)
      rw [if_neg hcond]
      have hcond2 : ¬((x :: y :: ys : List α) = [h]) := by
        intro hc
        simp at hc
      rw [if_neg (by simp [hcond2])]
      have : (h :: x :: y :: ys).dropLast = h :: x :: (y :: ys).dropLast := by
        rw [dropLast_cons_ne_nil _ (by simp), hmid]
      rw [this]
      have : (y :: ys).getLast? = some ((y :: ys).getLast (by simp)) := by
        rw [List.getLast?_eq_getLast]
      simp [List.getLast?_cons_cons, this, hlast]


/-! ## Lemmas about splitting and joining on the separator -/

theorem splitSlash_cons_eq (c : Char) (cs : List Char) :
    splitSlash (c :: cs) =
      match splitSlash cs with
      | [] => [[c]]
      | g :: gs => if c = '/' then [] :: g :: gs else (c :: g) :: gs := rfl

theorem splitSlash_ne_nil (s : List Char) : splitSlash s ≠ [] := by
  cases s with
  | nil => simp [splitSlash]
  | cons c cs =>
    rw [splitSlash_cons_eq]
    cases h : splitSlash cs with
    | nil => simp
    | cons g gs =>
      by_cases hc : c = '/' <;> simp [hc]

theorem splitSlash_cons_slash (cs : List Char) :
    splitSlash ('/' :: cs) = [] :: splitSlash cs := by
  rw [splitSlash_cons_eq]
  cases h : splitSlash cs with
  | nil => exact absurd h (splitSlash_ne_nil cs)
  | cons g gs => simp

theorem splitSlash_cons_nonslash {c : Char} (hc : c ≠ '/') (cs : List Char) :
    splitSlash (c :: cs) =
      (c :: (splitSlash cs).headI) :: (splitSlash cs).tail := by
  rw [splitSlash_cons_eq]
  cases h : splitSlash cs with
  | nil => exact absurd h (splitSlash_ne_nil cs)
  | cons g gs => simp [hc]

/-- Specification-side join: concatenate components with a single slash
between consecutive ones. -/
def joinSlash : List (List Char) → List Char
  | [] => []
  | [c] => c
  | c :: c2 :: cs => c ++ '/' :: joinSlash (c2 :: cs)

theorem joinSlash_cons_of_ne_nil (c : List Char) {l : List (List Char)}
    (h : l ≠ []) : joinSlash (c :: l) = c ++ '/' :: joinSlash l := by
  cases l with
  | nil => exact absurd rfl h
  | cons d ds => rfl

theorem joinSlash_splitSlash (s : List Char) : joinSlash (splitSlash s) = s := by
  induction s with
  | nil => rfl
  | cons c cs ih =>
    by_cases hc : c = '/'
    · subst hc
      rw [splitSlash_cons_slash, joinSlash_cons_of_ne_nil _ (splitSlash_ne_nil cs), ih]
      rfl
    · rw [splitSlash_cons_nonslash hc]
      cases h : splitSlash cs with
      | nil => exact absurd h (splitSlash_ne_nil cs)
      | cons g gs =>
        rw [h] at ih
        cases gs with
        | nil => simpa [joinSlash, List.headI] using ih
        | cons g2 gs2 =>
          simp only [List.headI, List.tail_cons]
          rw [joinSlash_cons_of_ne_nil _ (by simp)] at ih
          rw [joinSlash_cons_of_ne_nil _ (by simp), List.cons_append, ih]

theorem no_slash_of_mem_splitSlash {s : List Char} {c : List Char}
    (h : c ∈ splitSlash s) : '/' ∉ c := by
  induction s generalizing c with
  | nil =>
    simp [splitSlash] at h
    subst h
    simp
  | cons a as ih =>
    by_cases ha : a = '/'
    · subst ha
      rw [splitSlash_cons_slash] at h
      rcases List.mem_cons.mp h with h | h
      · subst h; simp
      · exact ih h
    · rw [splitSlash_cons_nonslash ha] at h
      rcases List.mem_cons.mp h with h | h
      · subst h
        intro hmem
        rcases List.mem_cons.mp hmem with hmem | hmem
        · exact ha hmem.symm
        · have hh : (splitSlash as).headI ∈ splitSlash as := by
            cases hs : splitSlash as with
            | nil => exact absurd hs (splitSlash_ne_nil as)
            | cons g gs => simp [List.headI]
          exact ih hh hmem
      · exact ih (List.mem_of_mem_tail h)

theorem trimEndSlashes_eq_self {s : List Char} (h : s.getLast? ≠ some '/') :
    trimEndSlashes s = s := by
  unfold trimEndSlashes
  cases hr : s.reverse with
  | nil =>
    have : s = [] := by simpa using congrArg List.reverse hr
    simp [this]
  | cons a as =>
    have ha : a ≠ '/' := by
      intro hc
      apply h
      rw [← List.head?_reverse, hr, hc]
      rfl
    rw [List.dropWhile_cons, if_neg (by simpa using ha), ← hr, List.reverse_reverse]

theorem joinSlash_ne_nil {comps : List (List Char)} (h : comps ≠ [])
    (hc : ∀ c ∈ comps, c ≠ []) : joinSlash comps ≠ [] := by
  cases comps with
  | nil => exact absurd rfl h
  | cons c cs =>
    cases cs with
    | nil => simpa [joinSlash] using hc c (by simp)
    | cons c2 cs2 =>
      rw [joinSlash_cons_of_ne_nil _ (by simp)]
      intro hcontra
      simp at hcontra

theorem joinSlash_getLast_ne_slash {comps : List (List Char)} (h : comps ≠ [])
    (hc : ∀ c ∈ comps, c ≠ [] ∧ '/' ∉ c) :
    (joinSlash comps).getLast? ≠ some '/' := by
  induction comps with
  | nil => exact absurd rfl h
  | cons c cs ih =>
    cases cs with
    | nil =>
      simp only [joinSlash]
      intro hcontra
      exact (hc c (by simp)).2 (List.mem_of_getLast?_eq_some hcontra)
    | cons c2 cs2 =>
      rw [joinSlash_cons_of_ne_nil _ (by simp)]
      have hrest : joinSlash (c2 :: cs2) ≠ [] :=
        joinSlash_ne_nil (by simp) (fun x hx => (hc x (List.mem_cons_of_mem c hx)).1)
      obtain ⟨a, ha⟩ : ∃ a, (joinSlash (c2 :: cs2)).getLast? = some a := by
        cases hr : (joinSlash (c2 :: cs2)).getLast? with
        | none => exact absurd (List.getLast?_eq_none_iff.mp hr) hrest
        | some a => exact ⟨a, rfl⟩
      have hih : (joinSlash (c2 :: cs2)).getLast? ≠ some '/' :=
        ih (by simp) (fun x hx => hc x (List.mem_cons_of_mem c hx))
      have hslash : ('/' :: joinSlash (c2 :: cs2)).getLast? = some a := by
        cases hj : joinSlash (c2 :: cs2) with
        | nil => exact absurd hj hrest
        | cons b bs =>
          rw [List.getLast?_cons_cons, ← hj, ha]
      rw [List.getLast?_append, hslash]
      simp only [Option.or_some]
      intro hcontra
      apply hih
      rw [ha]
      simpa using hcontra

theorem collectLabels_ok {comps : List (List Char)}
    (hc : ∀ c ∈ comps, c ≠ [] ∧ '/' ∉ c) :
    Path.collectLabels comps = .ok (comps.map (fun c => ⟨c, false⟩)) := by
  induction comps with
  | nil => rfl
  | cons c cs ih =>
    have h1 := hc c (by simp)
    simp only [Path.collectLabels, Label.tryFrom, if_neg h1.1, if_neg h1.2]
    rw [ih (fun x hx => hc x (List.mem_cons_of_mem c hx))]
    simp

theorem foldr_toText_eq_joinSlash (pre : List Label) (lastL : Label) :
    List.foldr (fun l acc => l.label ++ '/' :: acc) lastL.label pre
      = joinSlash (pre.map Label.label ++ [lastL.label]) := by
  induction pre with
  | nil => rfl
  | cons l rest ih =>
    simp only [List.foldr, List.map, List.cons_append]
    rw [joinSlash_cons_of_ne_nil _ (by simp), ih]

theorem lastOf_eq_getLast {α : Type u} (ne : NonEmpty α) :
    ne.lastOf = ne.toList.getLast (by simp [NonEmpty.toList]) := by
  obtain ⟨h, t⟩ := ne
  cases t with
  | nil => rfl
  | cons x xs =>
    simp only [NonEmpty.lastOf, NonEmpty.toList]
    rw [List.getLast?_eq_getLast (x :: xs) (by simp)]
    simp [List.getLast_cons]

theorem lastOf_mem_toList {α : Type u} (ne : NonEmpty α) :
    ne.lastOf ∈ ne.toList := by
  rw [lastOf_eq_getLast]
  exact List.getLast_mem _

/-- `Path::try_from` on a string all of whose slash-separated components are
non-empty: it succeeds and the labels are exactly the components. -/
theorem tryFrom_valid {s : List Char} (hc : ∀ c ∈ splitSlash s, c ≠ []) :
    ∃ p : Path, Path.tryFrom s = .ok p
      ∧ p.labels.toList.map Label.label = splitSlash s := by
  have hv : ∀ c ∈ splitSlash s, c ≠ [] ∧ '/' ∉ c :=
    fun c h => ⟨hc c h, no_slash_of_mem_splitSlash h⟩
  have hlast : s.getLast? ≠ some '/' := by
    rw [← joinSlash_splitSlash s]
    exact joinSlash_getLast_ne_slash (splitSlash_ne_nil s) hv
  have htrim : trimEndSlashes s = s := trimEndSlashes_eq_self hlast
  unfold Path.tryFrom
  rw [htrim, collectLabels_ok hv]
  cases hs : splitSlash s with
  | nil => exact absurd hs (splitSlash_ne_nil s)
  | cons g gs =>
    refine ⟨⟨⟨⟨g, false⟩, gs.map (fun c => ⟨c, false⟩)⟩⟩, by simp, ?_⟩
    simp only [NonEmpty.toList, List.map_cons, List.map_map]
    congr 1
    have : (Label.label ∘ fun c => (⟨c, false⟩ : Label)) = id := rfl
    rw [this, List.map_id]

theorem toText_eq_joinSlash (p : Path) :
    Path.toText p
      = joinSlash ((p.splitLast.1).map Label.label ++ [p.splitLast.2.label]) := by
  unfold Path.toText
  exact foldr_toText_eq_joinSlash _ _

/-- For any path whose labels are not two equal ones, rendering recovers the
join of all the label texts. -/
theorem toText_of_not_double (p : Path)
    (hne : p.labels.tail ≠ [p.labels.head]) :
    Path.toText p = joinSlash (p.labels.toList.map Label.label) := by
  rw [toText_eq_joinSlash]
  unfold Path.splitLast
  rw [split_last_eq]
  by_cases h1 : p.labels.tail = []
  · have : p.labels.toList = [p.labels.head] := by
      simp [NonEmpty.toList, h1]
    rw [if_pos (Or.inl h1), this]
    simp [lastOf_eq_getLast, this, joinSlash]
  · rw [if_neg (by simp [h1, hne])]
    have hnil : p.labels.toList ≠ [] := by simp [NonEmpty.toList]
    rw [lastOf_eq_getLast]
    rw [List.map_dropLast, ← List.getLast_map Label.label _ (by simpa using hnil)]
    rw [List.dropLast_append_getLast (by simpa using hnil)]

/-! ## Further parsing lemmas -/

theorem collectLabels_error_of_empty_mem {comps : List (List Char)}
    (hs : ∀ c ∈ comps, '/' ∉ c) (h : ∃ c ∈ comps, c = []) :
    Path.collectLabels comps = .error .emptyLabel := by
  induction comps with
  | nil => rcases h with ⟨c, hc, _⟩; cases hc
  | cons c cs ih =>
    by_cases hce : c = []
    · subst hce
      simp [Path.collectLabels, Label.tryFrom]
    · simp only [Path.collectLabels, Label.tryFrom, if_neg hce,
        if_neg (hs c (by simp))]
      rcases h with ⟨d, hd, hde⟩
      rcases List.mem_cons.mp hd with hd | hd
      · exact absurd (hd ▸ hde) hce
      · rw [ih (fun x hx => hs x (List.mem_cons_of_mem c hx)) ⟨d, hd, hde⟩]

theorem collectLabels_error_ne_emptyPath {comps : List (List Char)}
    {e : FsError} (h : Path.collectLabels comps = .error e) :
    e ≠ FsError.emptyPath := by
  induction comps generalizing e with
  | nil => cases h
  | cons c cs ih =>
    by_cases hce : c = []
    · subst hce
      simp [Path.collectLabels, Label.tryFrom] at h
      subst h
      intro hc; cases hc
    · by_cases hcs : '/' ∈ c
      · simp only [Path.collectLabels, Label.tryFrom, if_neg hce, if_pos hcs,
          Except.error.injEq] at h
        subst h
        intro hc; cases hc
      · simp only [Path.collectLabels, Label.tryFrom, if_neg hce, if_neg hcs] at h
        cases hrec : Path.collectLabels cs with
        | error e2 =>
          simp only [hrec, Except.error.injEq] at h
          subst h
          exact ih hrec
        | ok ls =>
          simp only [hrec] at h
          simp at h

theorem collectLabels_ok_length {comps : List (List Char)} {ls : List Label}
    (h : Path.collectLabels comps = .ok ls) : ls.length = comps.length := by
  induction comps generalizing ls with
  | nil => cases h; rfl
  | cons c cs ih =>
    simp only [Path.collectLabels] at h
    cases hl : Label.tryFrom c with
    | error e => rw [hl] at h; cases h
    | ok l =>
      rw [hl] at h
      cases hrec : Path.collectLabels cs with
      | error e => rw [hrec] at h; cases h
      | ok ls2 =>
        rw [hrec] at h
        cases h
        simp [ih hrec]

theorem collectLabels_ok_valid {comps : List (List Char)} {ls : List Label}
    (h : Path.collectLabels comps = .ok ls) :
    ∀ l ∈ ls, l.label ≠ [] ∧ '/' ∉ l.label := by
  induction comps generalizing ls with
  | nil => cases h; intro l hl; cases hl
  | cons c cs ih =>
    simp only [Path.collectLabels] at h
    cases hl : Label.tryFrom c with
    | error e => rw [hl] at h; cases h
    | ok l =>
      rw [hl] at h
      cases hrec : Path.collectLabels cs with
      | error e => rw [hrec] at h; cases h
      | ok ls2 =>
        rw [hrec] at h
        cases h
        intro x hx
        rcases List.mem_cons.mp hx with hx | hx
        · subst hx
          unfold Label.tryFrom at hl
          by_cases hce : c = []
          · rw [if_pos hce] at hl; cases hl
          · rw [if_neg hce] at hl
            by_cases hcs : '/' ∈ c
            · rw [if_pos hcs] at hl; cases hl
            · rw [if_neg hcs] at hl
              cases hl
              exact ⟨hce, hcs⟩
        · exact ih hrec x hx

theorem tryFrom_ok_valid {s : List Char} {p : Path}
    (h : Path.tryFrom s = .ok p) :
    ∀ l ∈ p.labels.toList, l.label ≠ [] ∧ '/' ∉ l.label := by
  unfold Path.tryFrom at h
  cases hc : Path.collectLabels (splitSlash (trimEndSlashes s)) with
  | error e => simp only [hc] at h; simp at h
  | ok ls =>
    simp only [hc] at h
    cases hls : NonEmpty.fromList ls with
    | none => simp only [hls] at h; simp at h
    | some ne =>
      simp only [hls, Except.ok.injEq] at h
      subst h
      have hv := collectLabels_ok_valid hc
      intro l hl
      apply hv
      cases ls with
      | nil => cases hls
      | cons a as =>
        simp only [NonEmpty.fromList_cons, Option.some.injEq] at hls
        subst hls
        simpa [NonEmpty.toList] using hl

theorem splitLast_parts_mem (p : Path) :
    (∀ l ∈ p.splitLast.1, l ∈ p.labels.toList)
      ∧ p.splitLast.2 ∈ p.labels.toList := by
  unfold Path.splitLast
  rw [split_last_eq]
  constructor
  · intro l hl
    by_cases hcond : p.labels.tail = [] ∨ p.labels.tail = [p.labels.head]
    · rw [if_pos hcond] at hl; cases hl
    · rw [if_neg hcond] at hl
      exact List.dropLast_subset _ hl
  · simpa using lastOf_mem_toList p.labels

theorem dropWhile_replicate_append (k : Nat) (l : List Char) :
    List.dropWhile (fun c => c = '/') (List.replicate k '/' ++ l)
      = List.dropWhile (fun c => c = '/') l := by
  induction k with
  | zero => rfl
  | succ n ih =>
    rw [List.replicate_succ, List.cons_append, List.dropWhile_cons]
    simp [ih]

theorem trimEndSlashes_append_replicate (s : List Char) (k : Nat) :
    trimEndSlashes (s ++ List.replicate k '/') = trimEndSlashes s := by
  unfold trimEndSlashes
  rw [List.reverse_append, List.reverse_replicate, dropWhile_replicate_append]

theorem toText_getLast_ne_slash {s : List Char} {p : Path}
    (h : Path.tryFrom s = .ok p) :
    (Path.toText p).getLast? ≠ some '/' := by
  rw [toText_eq_joinSlash]
  have hv := tryFrom_ok_valid h
  have hmem := splitLast_parts_mem p
  apply joinSlash_getLast_ne_slash (by simp)
  intro c hcmem
  rcases List.mem_append.mp hcmem with hcm | hcm
  · obtain ⟨l, hl, rfl⟩ := List.mem_map.mp hcm
    exact hv l (hmem.1 l hl)
  · simp only [List.mem_singleton] at hcm
    subst hcm
    exact hv _ hmem.2

/-! ## Concrete labels and paths used in counterexamples and witnesses -/

def aLab : Label := ⟨['a'], false⟩

def pathAA : Path := ⟨⟨aLab, [aLab]⟩⟩

def fooLab : Label := ⟨['f', 'o', 'o'], false⟩

def barLab : Label := ⟨['b', 'a', 'r'], false⟩

def fooBarFoo : Path := ⟨⟨fooLab, [barLab, fooLab]⟩⟩

/-! ## Claim C3: split_last -/

/-- C3, counterexample: on the two-label path `a/a` the code returns an
empty first component even though the path has two labels, so the labels
before the last one (`[a]`) are lost; the claim's "the prefix is empty
exactly when p has exactly one label" fails here. -/
theorem C3_counterexample :
    Path.splitLast pathAA = ([], aLab)
    ∧ pathAA.labels.toList.length = 2
    ∧ pathAA.labels.toList.dropLast = [aLab] := by
  refine ⟨?_, rfl, rfl⟩
  rw [Path.splitLast, split_last_eq]
  simp [pathAA, NonEmpty.lastOf, aLab]

/-- C3 (amended): `splitLast(p)` returns `(pre, last)` where `last` is the
final label of `p`; `pre` is the sequence of all labels before it unless the
path consists of exactly two equal labels, in which case `pre` is empty; so
the empty-`pre` case occurs exactly when `p` has one label or two equal
labels. A single-label path yields `([], thatLabel)` and `foo/bar/foo`
yields `([foo, bar], foo)`. -/
theorem C3_splitLast_characterisation :
    (∀ p : Path, p.splitLast =
      (if p.labels.tail = [] ∨ p.labels.tail = [p.labels.head] then []
       else p.labels.toList.dropLast,
       p.labels.lastOf))
    ∧ (∀ l : Label, (Path.new l).splitLast = ([], l))
    ∧ Path.splitLast fooBarFoo = ([fooLab, barLab], fooLab) := by
  refine ⟨fun p => split_last_eq p.labels, fun l => ?_, ?_⟩
  · rw [Path.splitLast, split_last_eq]
    simp [Path.new, NonEmpty.lastOf]
  · rw [Path.splitLast, split_last_eq]
    simp [fooBarFoo, NonEmpty.lastOf, NonEmpty.toList, fooLab, barLab]

/-! ## Claim C4: parse/render round trip -/

/-- C4, counterexample: `"a/a"` is a valid path string (non-empty,
slash-delimited, non-empty components, no trailing separator), parsing
succeeds, but rendering the parsed path yields `"a"`, not `"a/a"`. -/
theorem C4_counterexample :
    Path.tryFrom ['a', '/', 'a'] = .ok pathAA
    ∧ Path.toText pathAA ≠ ['a', '/', 'a'] := by
  constructor
  · rfl
  · decide

/-- C4 (amended): for every valid path string (all slash-separated
components non-empty, hence also no trailing separator) whose component
sequence is not two equal components, parsing succeeds and rendering the
parsed path yields the input exactly. -/
theorem C4_roundtrip (s : List Char)
    (hc : ∀ c ∈ splitSlash s, c ≠ [])
    (hd : ∀ a ∈ splitSlash s, splitSlash s ≠ [a, a]) :
    ∃ p : Path, Path.tryFrom s = .ok p ∧ Path.toText p = s := by
  obtain ⟨p, hp, hmap⟩ := tryFrom_valid hc
  refine ⟨p, hp, ?_⟩
  have hne : p.labels.tail ≠ [p.labels.head] := by
    intro hcontra
    have h2 : p.labels.toList = [p.labels.head, p.labels.head] := by
      simp [NonEmpty.toList, hcontra]
    have h3 : splitSlash s = [p.labels.head.label, p.labels.head.label] := by
      rw [← hmap, h2]
      simp
    exact hd p.labels.head.label (by rw [h3]; simp) h3
  rw [toText_of_not_double p hne, hmap, joinSlash_splitSlash]

/-- Witness for C4: the round trip evaluated on `"foo/bar"`. -/
theorem C4_roundtrip_witness :
    ∃ p : Path, Path.tryFrom ['f', 'o', 'o', '/', 'b', 'a', 'r'] = .ok p
      ∧ Path.toText p = ['f', 'o', 'o', '/', 'b', 'a', 'r'] :=
  C4_roundtrip ['f', 'o', 'o', '/', 'b', 'a', 'r'] (by decide) (by decide)

/-! ## Claim C5: parse errors -/

/-- C5, counterexample: `parse("")` fails with the empty-label error, which
is not the `EmptyPath` error the claim names. -/
theorem C5_counterexample :
    Path.tryFrom [] = .error .emptyLabel
    ∧ FsError.emptyLabel ≠ FsError.emptyPath := by
  exact ⟨rfl, by decide⟩

/-- C5 (amended): parsing a string that is empty after trimming trailing
separators fails with the empty-label `InvalidLabel` error (in particular
`parse("")` does), as does parsing any string with an empty component;
the `EmptyPath` error is never produced by parse. -/
theorem C5_parse_errors :
    (∀ s : List Char, trimEndSlashes s = [] →
      Path.tryFrom s = .error .emptyLabel)
    ∧ (∀ s : List Char, (∃ c ∈ splitSlash (trimEndSlashes s), c = []) →
      Path.tryFrom s = .error .emptyLabel)
    ∧ (∀ s : List Char, Path.tryFrom s ≠ .error .emptyPath) := by
  have key : ∀ s : List Char, (∃ c ∈ splitSlash (trimEndSlashes s), c = []) →
      Path.tryFrom s = .error .emptyLabel := by
    intro s hs
    unfold Path.tryFrom
    rw [collectLabels_error_of_empty_mem
      (fun c hc => no_slash_of_mem_splitSlash hc) hs]
  refine ⟨?_, key, ?_⟩
  · intro s hs
    apply key
    rw [hs]
    exact ⟨[], by simp [splitSlash]⟩
  · intro s hcontra
    unfold Path.tryFrom at hcontra
    cases hc : Path.collectLabels (splitSlash (trimEndSlashes s)) with
    | error e =>
      simp only [hc, Except.error.injEq] at hcontra
      exact collectLabels_error_ne_emptyPath hc hcontra
    | ok ls =>
      simp only [hc] at hcontra
      have hlen : ls.length = (splitSlash (trimEndSlashes s)).length :=
        collectLabels_ok_length hc
      cases ls with
      | nil =>
        have hnil := splitSlash_ne_nil (trimEndSlashes s)
        simp at hlen
        exact hnil (List.length_eq_zero.mp hlen.symm)
      | cons l ls2 => simp at hcontra

/-- Witness for C5: the three statements evaluated at `"/"`, `"a//b"` and
`"x"`. -/
theorem C5_parse_errors_witness :
    Path.tryFrom ['/'] = .error .emptyLabel
    ∧ Path.tryFrom ['a', '/', '/', 'b'] = .error .emptyLabel
    ∧ Path.tryFrom ['x'] ≠ .error .emptyPath :=
  ⟨C5_parse_errors.1 ['/'] (by decide),
   C5_parse_errors.2.1 ['a', '/', '/', 'b'] (by decide),
   C5_parse_errors.2.2 ['x']⟩

/-! ## Claim C10: trailing separators -/

/-- C10: appending one or more trailing slashes to a string that parses
successfully does not change the parse result, and the rendered text of the
parsed path differs from the slash-suffixed input, so the round-trip law
can only hold for inputs without trailing separators. -/
theorem C10_trailing_slashes (s : List Char) (k : Nat) (p : Path)
    (hk : 1 ≤ k) (hp : Path.tryFrom s = .ok p) :
    Path.tryFrom (s ++ List.replicate k '/') = .ok p
    ∧ Path.toText p ≠ s ++ List.replicate k '/' := by
  constructor
  · unfold Path.tryFrom at hp ⊢
    rw [trimEndSlashes_append_replicate]
    exact hp
  · intro hcontra
    have h1 : (Path.toText p).getLast? ≠ some '/' := toText_getLast_ne_slash hp
    apply h1
    rw [hcontra]
    obtain ⟨j, rfl⟩ : ∃ j, k = j + 1 := ⟨k - 1, by omega⟩
    rw [List.replicate_succ', ← List.append_assoc, List.getLast?_concat]

/-- Witness for C10: `"a/b"` with two trailing slashes. -/
theorem C10_trailing_slashes_witness :
    Path.tryFrom (['a', '/', 'b'] ++ List.replicate 2 '/')
      = .ok ⟨⟨⟨['a'], false⟩, [⟨['b'], false⟩]⟩⟩
    ∧ Path.toText ⟨⟨⟨['a'], false⟩, [⟨['b'], false⟩]⟩⟩
      ≠ ['a', '/', 'b'] ++ List.replicate 2 '/' :=
  C10_trailing_slashes ['a', '/', 'b'] 2 ⟨⟨⟨['a'], false⟩, [⟨['b'], false⟩]⟩⟩
    (by decide) (by rfl)

/-! ## History and Browser (src/src/vcs.rs) -/

/-- Embedding of `History<A>`: a non-empty sequence of artifacts. -/
structure History (A : Type u) where
  artifacts : NonEmpty A
  deriving DecidableEq, Repr

namespace History

variable {A : Type u}

/-- `History::new`. -/
def new (a : A) : History A := ⟨⟨a, []⟩⟩

/-- `History::push`: append an artifact at the end, with no duplicate
check. -/
def push (h : History A) (a : A) : History A := ⟨h.artifacts.push a⟩

/-- `History::first`. -/
def first (h : History A) : A := h.artifacts.first

/-- The artifacts in order, head first. -/
def toList (h : History A) : List A := h.artifacts.toList

/-- `History::find_suffix`: skip artifacts from the head while they differ
from the target, then rebuild a non-empty history from what remains. -/
def find_suffix [DecidableEq A] (h : History A) (a : A) : Option (History A) :=
  (NonEmpty.fromList (h.toList.dropWhile (fun x => decide (x ≠ a)))).map
    (fun ne => ⟨ne⟩)

end History

/-- Embedding of `Browser<Repo, A, Error>`: a snapshot rendering function,
the current history, and the repository handle. -/
structure Browser (Repo A E Dir : Type) where
  snapshot : Repo → History A → Except E Dir
  history : History A
  repository : Repo

namespace Browser

variable {Repo A E Dir : Type}

/-- `Browser::get`. -/
def get (b : Browser Repo A E Dir) : History A := b.history

/-- `Browser::set`: install the given history unconditionally. -/
def set (b : Browser Repo A E Dir) (h : History A) : Browser Repo A E Dir :=
  { b with history := h }

/-- `Browser::modify`. -/
def modify (b : Browser Repo A E Dir) (f : History A → History A) :
    Browser Repo A E Dir :=
  { b with history := f b.history }

/-- `Browser::get_directory`: re-invoke the stored snapshot function. -/
def get_directory (b : Browser Repo A E Dir) : Except E Dir :=
  b.snapshot b.repository b.history

end Browser

/-! ## Claim C6: find_suffix -/

theorem dropWhile_ne_of_not_mem {A : Type u} [DecidableEq A] {l : List A}
    {a : A} (h : a ∉ l) :
    l.dropWhile (fun x => decide (x ≠ a)) = [] := by
  induction l with
  | nil => rfl
  | cons x xs ih =>
    rw [List.dropWhile_cons]
    have hx : x ≠ a := fun hc => h (hc ▸ List.mem_cons_self x xs)
    rw [if_pos (by simpa using hx)]
    exact ih (fun hc => h (List.mem_cons_of_mem x hc))

theorem dropWhile_ne_append {A : Type u} [DecidableEq A] {pre : List A}
    {a : A} (rest : List A) (h : a ∉ pre) :
    (pre ++ a :: rest).dropWhile (fun x => decide (x ≠ a)) = a :: rest := by
  induction pre with
  | nil =>
    rw [List.nil_append, List.dropWhile_cons]
    simp
  | cons x xs ih =>
    rw [List.cons_append, List.dropWhile_cons]
    have hx : x ≠ a := fun hc => h (hc ▸ List.mem_cons_self x xs)
    rw [if_pos (by simpa using hx)]
    exact ih (fun hc => h (List.mem_cons_of_mem x hc))

/-- C6: `findSuffix` keeps the first artifact equal to the target together
with everything after it, dropping exactly what comes before; if the target
does not occur, it returns no value. -/
theorem C6_find_suffix {A : Type u} [DecidableEq A] (h : History A) (a : A) :
    (a ∉ h.toList → h.find_suffix a = none)
    ∧ (∀ pre rest, h.toList = pre ++ a :: rest → a ∉ pre →
        h.find_suffix a = some ⟨⟨a, rest⟩⟩) := by
  constructor
  · intro hmem
    unfold History.find_suffix
    rw [dropWhile_ne_of_not_mem hmem]
    rfl
  · intro pre rest hsplit hpre
    unfold History.find_suffix
    rw [hsplit, dropWhile_ne_append rest hpre]
    rfl

/-- Witness for C6: the history `[1, 2, 3]` with a present and an absent
target. -/
theorem C6_find_suffix_witness :
    (((History.new 1).push 2).push 3).find_suffix 5 = none
    ∧ (((History.new 1).push 2).push 3).find_suffix 2 = some ⟨⟨2, [3]⟩⟩ :=
  ⟨(C6_find_suffix (((History.new 1).push 2).push 3) 5).1 (by decide),
   (C6_find_suffix (((History.new 1).push 2).push 3) 2).2 [1] [3] rfl
     (by decide)⟩

/-! ## Claim C9: no duplicate-identifier invariant on History/Browser -/

/-- C9: the public operations do not enforce the no-duplicate invariant:
pushing an already-contained artifact stores it twice, and `set`/`modify`
install whatever history they are given, unchecked. -/
theorem C9_no_invariant :
    (∃ (h : History Nat) (a : Nat), a ∈ h.toList
      ∧ (h.push a).toList.count a = 2)
    ∧ (∀ (b : Browser Unit Nat Unit Unit) (h : History Nat),
        (b.set h).history = h)
    ∧ (∀ (b : Browser Unit Nat Unit Unit) (f : History Nat → History Nat),
        (b.modify f).history = f b.history) :=
  ⟨⟨History.new 0, 0, by decide, by decide⟩,
   fun _ _ => rfl, fun _ _ => rfl⟩

/-! ## Git Browser switches (src/src/vcs/git.rs) -/

/-- Errors of the git VCS layer (src/src/vcs/git/error.rs); the engine's
opaque `git2::Error` is carried as a numeric code. -/
inductive GitError where
  | notBranch : List Char → GitError
  | notTag : List Char → GitError
  | revParseFailure : List Char → GitError
  | fileSystem : FsError → GitError
  | lastCommitException : GitError
  | git : Nat → GitError
  deriving DecidableEq, Repr

/-- Reference classification as returned by the engine's
`resolve_reference_from_short_name`. -/
structure RefInfo where
  is_branch : Bool
  is_remote : Bool
  is_tag : Bool
  deriving DecidableEq, Repr

namespace Browser

variable {Repo A Dir : Type}

/-- `Browser::branch` (src/src/vcs/git.rs:501-516): resolve the short name
via the engine, reject non-branch references with `NotBranch`, then build
the history via the engine and install it. The engine results are passed in
as parameters. -/
def branch (b : Browser Repo A GitError Dir) (branch_name : List Char)
    (resolveRef : Except Nat RefInfo)
    (histResult : Except GitError (History A)) :
    Except GitError Unit × Browser Repo A GitError Dir :=
  match resolveRef with
  | .error e => (.error (.git e), b)
  | .ok r =>
    if !(r.is_branch || r.is_remote) then (.error (.notBranch branch_name), b)
    else
      match histResult with
      | .error e => (.error e, b)
      | .ok h => (.ok (), b.set h)

/-- `Browser::tag` (src/src/vcs/git.rs:552-567): resolve the short name,
reject non-tag references with `NotTag`, then build and install the
history. -/
def tag (b : Browser Repo A GitError Dir) (tag_name : List Char)
    (resolveRef : Except Nat RefInfo)
    (histResult : Except GitError (History A)) :
    Except GitError Unit × Browser Repo A GitError Dir :=
  match resolveRef with
  | .error e => (.error (.git e), b)
  | .ok r =>
    if !r.is_tag then (.error (.notTag tag_name), b)
    else
      match histResult with
      | .error e => (.error e, b)
      | .ok h => (.ok (), b.set h)

/-- `Browser::commit` (src/src/vcs/git.rs:610-615): fetch the commit, build
its history, install it. -/
def commit (b : Browser Repo A GitError Dir)
    (getCommitResult : Except GitError A)
    (commitToHistory : A → Except GitError (History A)) :
    Except GitError Unit × Browser Repo A GitError Dir :=
  match getCommitResult with
  | .error e => (.error e, b)
  | .ok c =>
    match commitToHistory c with
    | .error e => (.error e, b)
    | .ok h => (.ok (), b.set h)

/-- `Browser::revspec` (src/src/vcs/git.rs:648-652): build the history from
the revision spec and install it. -/
def revspec (b : Browser Repo A GitError Dir)
    (histResult : Except GitError (History A)) :
    Except GitError Unit × Browser Repo A GitError Dir :=
  match histResult with
  | .error e => (.error e, b)
  | .ok h => (.ok (), b.set h)

end Browser

/-- C7: every switch operation is atomic: when it returns any error —
including `NotBranch`/`NotTag` — the browser is exactly what it was before
the call, and on success the browser is the old one with exactly the newly
built history installed. -/
theorem C7_switch_atomic (Repo A Dir : Type)
    (b : Browser Repo A GitError Dir) (bname tname : List Char)
    (resolveRef resolveRef2 : Except Nat RefInfo)
    (hist hist2 spec : Except GitError (History A))
    (getCommitResult : Except GitError A)
    (commitToHistory : A → Except GitError (History A)) :
    ((∀ e, (b.branch bname resolveRef hist).1 = .error e →
        (b.branch bname resolveRef hist).2 = b)
      ∧ (∀ u, (b.branch bname resolveRef hist).1 = .ok u →
        ∃ h, hist = .ok h ∧ (b.branch bname resolveRef hist).2 = b.set h))
    ∧ ((∀ e, (b.tag tname resolveRef2 hist2).1 = .error e →
        (b.tag tname resolveRef2 hist2).2 = b)
      ∧ (∀ u, (b.tag tname resolveRef2 hist2).1 = .ok u →
        ∃ h, hist2 = .ok h ∧ (b.tag tname resolveRef2 hist2).2 = b.set h))
    ∧ ((∀ e, (b.commit getCommitResult commitToHistory).1 = .error e →
        (b.commit getCommitResult commitToHistory).2 = b)
      ∧ (∀ u, (b.commit getCommitResult commitToHistory).1 = .ok u →
        ∃ c h, getCommitResult = .ok c ∧ commitToHistory c = .ok h
          ∧ (b.commit getCommitResult commitToHistory).2 = b.set h))
    ∧ ((∀ e, (b.revspec spec).1 = .error e → (b.revspec spec).2 = b)
      ∧ (∀ u, (b.revspec spec).1 = .ok u →
        ∃ h, spec = .ok h ∧ (b.revspec spec).2 = b.set h)) := by
  refine ⟨⟨?_, ?_⟩, ⟨?_, ?_⟩, ⟨?_, ?_⟩, ⟨?_, ?_⟩⟩
  · intro e he
    unfold Browser.branch at *
    cases resolveRef with
    | error e2 => rfl
    | ok r =>
      by_cases hb : !(r.is_branch || r.is_remote)
      · simp only [if_pos hb]
      · simp only [if_neg hb] at he ⊢
        cases hist with
        | error e2 => rfl
        | ok h => simp at he
  · intro u hu
    unfold Browser.branch at *
    cases resolveRef with
    | error e2 => simp at hu
    | ok r =>
      by_cases hb : !(r.is_branch || r.is_remote)
      · simp only [if_pos hb] at hu; simp at hu
      · simp only [if_neg hb] at hu ⊢
        cases hist with
        | error e2 => simp at hu
        | ok h => exact ⟨h, rfl, rfl⟩
  · intro e he
    unfold Browser.tag at *
    cases resolveRef2 with
    | error e2 => rfl
    | ok r =>
      by_cases hb : !r.is_tag
      · simp only [if_pos hb]
      · simp only [if_neg hb] at he ⊢
        cases hist2 with
        | error e2 => rfl
        | ok h => simp at he
  · intro u hu
    unfold Browser.tag at *
    cases resolveRef2 with
    | error e2 => simp at hu
    | ok r =>
      by_cases hb : !r.is_tag
      · simp only [if_pos hb] at hu; simp at hu
      · simp only [if_neg hb] at hu ⊢
        cases hist2 with
        | error e2 => simp at hu
        | ok h => exact ⟨h, rfl, rfl⟩
  · intro e he
    unfold Browser.commit at *
    cases getCommitResult with
    | error e2 => rfl
    | ok c =>
      cases hch : commitToHistory c with
      | error e2 => simp only [hch]
      | ok h => simp only [hch] at he; simp at he
  · intro u hu
    unfold Browser.commit at *
    cases getCommitResult with
    | error e2 => simp at hu
    | ok c =>
      cases hch : commitToHistory c with
      | error e2 => simp only [hch] at hu; simp at hu
      | ok h => exact ⟨c, h, rfl, hch, by simp only [hch]⟩
  · intro e he
    unfold Browser.revspec at *
    cases spec with
    | error e2 => rfl
    | ok h => simp at he
  · intro u hu
    unfold Browser.revspec at *
    cases spec with
    | error e2 => simp at hu
    | ok h => exact ⟨h, rfl, rfl⟩

/-- A concrete browser used by witnesses. -/
def b0 : Browser Unit Nat GitError Unit :=
  ⟨fun _ _ => .error (.git 0), History.new 0, ()⟩

/-- Witness for C7: failed switches on a concrete browser leave it
untouched; a successful revspec installs the new history. -/
theorem C7_switch_atomic_witness :
    (b0.branch ['m'] (.error 7) (.ok (History.new 1))).2 = b0
    ∧ (b0.tag ['t'] (.ok ⟨true, false, false⟩) (.ok (History.new 1))).2 = b0
    ∧ (b0.commit (.error .lastCommitException)
        (fun c => .ok (History.new c))).2 = b0
    ∧ (b0.revspec (.ok (History.new 2))).2 = b0.set (History.new 2) := by
  have hmain := C7_switch_atomic Unit Nat Unit b0 ['m'] ['t']
    (.error 7) (.ok ⟨true, false, false⟩)
    (.ok (History.new 1)) (.ok (History.new 1)) (.ok (History.new 2))
    (.error .lastCommitException) (fun c => .ok (History.new c))
  refine ⟨hmain.1.1 (.git 7) rfl, hmain.2.1.1 (.notTag ['t']) rfl,
    hmain.2.2.1.1 .lastCommitException rfl, ?_⟩
  obtain ⟨h, hh, hset⟩ := hmain.2.2.2.2 () rfl
  cases hh
  exact hset

/-! ## Ancestry last-touch index (src/src/vcs/git.rs) -/

/-- Embedding of `OrderedCommit` (src/src/vcs/git.rs:70-73): a commit
paired with the traversal rank at which the revwalk discovered it; the
commit type is kept generic. -/
structure OrderedCommit (C : Type) where
  id : Nat
  commit : C
  deriving DecidableEq, Repr

/-- `OrderedCommit::compare_by_id` (src/src/vcs/git.rs:85-89): compare the
ranks and reverse the ordering. -/
def OrderedCommit.compare_by_id {C : Type} (a b : OrderedCommit C) : Ordering :=
  (compare a.id b.id).swap

/-- Modelled from the spec: the Path Index (`Forest` of `crate::tree`) is
not under `src/`. Spec §3: "a trie keyed by Label sequences; each distinct
path in the trie optionally holds a value … Supports insert-or-merge at a
path (create the value if absent, else merge via a caller-supplied
combiner) and exact-path lookup." The trie is modelled extensionally as
the finite association of key sequences to the values they hold. -/
def Forest (K V : Type) : Type := List (List K × V)

namespace Forest

variable {K V : Type}

/-- `Forest::root()`: the empty index. -/
def root : Forest K V := []

/-- Modelled from the spec: exact-path lookup — the value held at exactly
the given key sequence, if any. -/
def find [DecidableEq K] : Forest K V → List K → Option V
  | [], _ => none
  | e :: es, k => if e.1 = k then some e.2 else find es k

/-- Modelled from the spec: insert-or-merge at a path — create the value if
absent, else merge via the caller-supplied combiner. -/
def insert_with [DecidableEq K] : Forest K V → List K → V → (V → V) → Forest K V
  | [], k, v, _ => [(k, v)]
  | e :: es, k, v, comb =>
    if e.1 = k then (e.1, comb e.2) :: es
    else e :: insert_with es k v comb

end Forest

theorem Forest.find_insert_with {K V : Type} [DecidableEq K]
    (f : Forest K V) (k : List K) (v : V) (comb : V → V) (k2 : List K) :
    (Forest.insert_with f k v comb).find k2 =
      if k2 = k then
        some (match Forest.find f k with
              | none => v
              | some old => comb old)
      else Forest.find f k2 := by
  induction f with
  | nil =>
    by_cases h : k2 = k
    · subst h
      simp [Forest.insert_with, Forest.find]
    · have h2 : ¬(k = k2) := fun hc => h hc.symm
      simp [Forest.insert_with, Forest.find, h, h2]
  | cons e es ih =>
    by_cases he : e.1 = k
    · by_cases h : k2 = k
      · subst h
        simp [Forest.insert_with, Forest.find, he]
      · have h3 : ¬(e.1 = k2) := fun hc => h (hc ▸ he)
        have h5 : ¬(k = k2) := fun hc => h hc.symm
        simp [Forest.insert_with, Forest.find, he, h, h3, h5]
    · by_cases h : k2 = k
      · subst h
        simp [Forest.insert_with, Forest.find, he, ih]
      · by_cases h4 : e.1 = k2
        · simp [Forest.insert_with, Forest.find, he, h4, h]
        · simp [Forest.insert_with, Forest.find, he, h4, h, ih]

/-- The index key of a path: its label sequence. -/
def Path.key (p : Path) : List Label := p.labels.toList

theorem Path.key_inj {p q : Path} (h : p.key = q.key) : p = q := by
  obtain ⟨⟨ph, pt⟩⟩ := p
  obtain ⟨⟨qh, qt⟩⟩ := q
  simp only [Path.key, NonEmpty.toList, List.cons.injEq] at h
  simp [h.1, h.2]

/-- The traversal loop of `Repository::collect_file_history`
(src/src/vcs/git.rs:228-258): walk the engine's revwalk output in order,
rank each commit by its enumeration index, and for every path the commit
touched insert a ranked commit at that exact path, creating a singleton
collection or appending to an existing one. The revwalk sequence and the
per-commit touched paths (`diff_commit_and_parents`, the union of the
engine's diffs against every parent) are parameters. -/
def collect_go {C : Type} (diffPaths : C → List Path) :
    Nat → List C → Forest Label (NonEmpty (OrderedCommit C)) →
    Forest Label (NonEmpty (OrderedCommit C))
  | _, [], fh => fh
  | id, c :: cs, fh =>
    collect_go diffPaths (id + 1) cs
      ((diffPaths c).foldl
        (fun acc q =>
          acc.insert_with q.key ⟨⟨id, c⟩, []⟩
            (fun commits => commits.push ⟨id, c⟩)) fh)

/-- `Repository::collect_file_history` seeded with rank 0 at the head of
the revwalk, starting from the empty index (`Repository::file_history`,
src/src/vcs/git.rs:219-226). -/
def collect_file_history {C : Type} (revwalk : List C)
    (diffPaths : C → List Path) : Forest Label (NonEmpty (OrderedCommit C)) :=
  collect_go diffPaths 0 revwalk Forest.root

/-- Embedding of `Browser::last_commit` (src/src/vcs/git.rs:781-790): look
the path up in the index and return the commit of the first entry of the
selected collection. Under the spec's exact-path lookup the `find` yields
the single per-path collection, so the source's `maximum_by` over the found
values (with `compare_by_id` reversed) selects exactly that collection, and
`.first()` takes its head. -/
def last_commit {C : Type} (fh : Forest Label (NonEmpty (OrderedCommit C)))
    (path : Path) : Option C :=
  (fh.find path.key).map (fun commits => commits.first.commit)

/-- Specification-side list of ranked entries inserted at path `p` during
the traversal, in insertion order. -/
def touchEntries {C : Type} (diffPaths : C → List Path) (p : Path) :
    Nat → List C → List (OrderedCommit C)
  | _, [] => []
  | id, c :: cs =>
    ((diffPaths c).filter (fun q => decide (q = p))).map
        (fun _ => (⟨id, c⟩ : OrderedCommit C))
      ++ touchEntries diffPaths p (id + 1) cs

theorem find_foldl_insert {C : Type} (i : Nat) (c : C) (qs : List Path)
    (fh : Forest Label (NonEmpty (OrderedCommit C))) (p : Path) :
    (qs.foldl
        (fun acc q =>
          acc.insert_with q.key ⟨⟨i, c⟩, []⟩
            (fun commits => commits.push ⟨i, c⟩)) fh).find p.key =
      match fh.find p.key with
      | none => NonEmpty.fromList
          ((qs.filter (fun q => decide (q = p))).map
            (fun _ => (⟨i, c⟩ : OrderedCommit C)))
      | some ne => some ⟨ne.head, ne.tail ++
          (qs.filter (fun q => decide (q = p))).map
            (fun _ => (⟨i, c⟩ : OrderedCommit C))⟩ := by
  induction qs generalizing fh with
  | nil =>
    cases hf : fh.find p.key with
    | none => simp [hf]
    | some ne => simp [hf]
  | cons q qs ih =>
    rw [List.foldl_cons, ih, Forest.find_insert_with]
    by_cases hq : q = p
    · subst hq
      rw [if_pos rfl]
      cases hf : fh.find q.key with
      | none =>
        simp only [hf, List.filter_cons]
        rw [if_pos (by simp)]
        simp [NonEmpty.push]
      | some ne =>
        simp only [hf, List.filter_cons]
        rw [if_pos (by simp)]
        simp [NonEmpty.push, List.append_assoc]
    · have hk : ¬(p.key = q.key) := fun hc => hq (Path.key_inj hc).symm
      rw [if_neg hk]
      simp only [List.filter_cons]
      rw [if_neg (by simpa using hq)]

theorem collect_go_find {C : Type} (diffPaths : C → List Path)
    (cs : List C) (i : Nat)
    (fh : Forest Label (NonEmpty (OrderedCommit C))) (p : Path) :
    (collect_go diffPaths i cs fh).find p.key =
      match fh.find p.key with
      | none => NonEmpty.fromList (touchEntries diffPaths p i cs)
      | some ne => some ⟨ne.head, ne.tail ++ touchEntries diffPaths p i cs⟩ := by
  induction cs generalizing i fh with
  | nil =>
    cases hf : fh.find p.key with
    | none => simp [collect_go, touchEntries, hf]
    | some ne => simp [collect_go, touchEntries, hf]
  | cons c cs ih =>
    simp only [collect_go]
    rw [ih, find_foldl_insert]
    simp only [touchEntries]
    cases hf : fh.find p.key with
    | none =>
      cases hocc : (diffPaths c).filter (fun q => decide (q = p)) with
      | nil => simp [hocc]
      | cons x xs => simp [hocc]
    | some ne =>
      simp [List.append_assoc]

/-- The value found at a path after the traversal is exactly the list of
ranked entries inserted there, in order. -/
theorem last_commit_collect_eq {C : Type} (revwalk : List C)
    (diffPaths : C → List Path) (p : Path) :
    last_commit (collect_file_history revwalk diffPaths) p
      = (NonEmpty.fromList (touchEntries diffPaths p 0 revwalk)).map
          (fun ne => ne.first.commit) := by
  unfold last_commit collect_file_history
  rw [collect_go_find]
  rfl

theorem touchEntries_eq_nil_iff {C : Type} (diffPaths : C → List Path)
    (p : Path) (i : Nat) (cs : List C) :
    touchEntries diffPaths p i cs = [] ↔ ∀ c ∈ cs, p ∉ diffPaths c := by
  induction cs generalizing i with
  | nil => simp [touchEntries]
  | cons c cs ih =>
    simp only [touchEntries, List.append_eq_nil, List.map_eq_nil_iff,
      List.filter_eq_nil_iff, List.forall_mem_cons, ih]
    constructor
    · rintro ⟨h1, h2⟩
      exact ⟨fun hp => by simpa using h1 p hp, h2⟩
    · rintro ⟨h1, h2⟩
      refine ⟨fun q hq => ?_, h2⟩
      simp only [decide_eq_true_eq]
      intro hqp
      exact h1 (hqp ▸ hq)

theorem touchEntries_head_of_first_touch {C : Type} (diffPaths : C → List Path)
    (p : Path) (cs : List C) :
    ∀ (i idx : Nat) (hidx : idx < cs.length),
    p ∈ diffPaths (cs.get ⟨idx, hidx⟩) →
    (∀ j : Fin cs.length, (j : Nat) < idx → p ∉ diffPaths (cs.get j)) →
    (touchEntries diffPaths p i cs).head?
      = some ⟨i + idx, cs.get ⟨idx, hidx⟩⟩ := by
  induction cs with
  | nil => intro i idx hidx; simp at hidx
  | cons c cs ih =>
    intro i idx hidx hp hprev
    cases idx with
    | zero =>
      have hmem : p ∈ (diffPaths c).filter (fun q => decide (q = p)) :=
        List.mem_filter.mpr ⟨by simpa using hp, by simp⟩
      cases hocc : (diffPaths c).filter (fun q => decide (q = p)) with
      | nil => rw [hocc] at hmem; cases hmem
      | cons x xs => simp [touchEntries, hocc]
    | succ n =>
      have h0 : p ∉ diffPaths c := by
        have hx := hprev ⟨0, by simp⟩ (Nat.succ_pos n)
        simp at hx
        exact hx
      have hocc : (diffPaths c).filter (fun q => decide (q = p)) = [] := by
        rw [List.filter_eq_nil_iff]
        intro q hq
        simp only [decide_eq_true_eq]
        intro hqp
        exact h0 (hqp ▸ hq)
      have hidx2 : n < cs.length := by
        have hx : n + 1 < cs.length + 1 := by simpa using hidx
        omega
      have hp2 : p ∈ diffPaths (cs.get ⟨n, hidx2⟩) := by simpa using hp
      have hprev2 : ∀ j : Fin cs.length, (j : Nat) < n →
          p ∉ diffPaths (cs.get j) := by
        intro j hj
        have hx := hprev ⟨(j : Nat) + 1, by simp [Nat.succ_lt_succ j.isLt]⟩
          (Nat.succ_lt_succ hj)
        simp at hx
        exact hx
      have hrec := ih (i + 1) n hidx2 hp2 hprev2
      simp only [touchEntries, hocc, List.map_nil, List.nil_append]
      rw [hrec]
      simp only [Option.some.injEq, OrderedCommit.mk.injEq]
      exact ⟨by omega, by simp⟩

/-- C1: answering a last-touch query on path `p` against the index built by
the traversal: if `p` was never touched, the answer is none; otherwise the
answer is the revision of the indexed entry with the smallest rank, i.e.
the touching revision closest to the traversal start. -/
theorem C1_last_commit (C : Type) (revwalk : List C)
    (diffPaths : C → List Path) (p : Path) :
    ((last_commit (collect_file_history revwalk diffPaths) p = none)
      ↔ ∀ c ∈ revwalk, p ∉ diffPaths c)
    ∧ (∀ (idx : Nat) (hidx : idx < revwalk.length),
        p ∈ diffPaths (revwalk.get ⟨idx, hidx⟩) →
        (∀ j : Fin revwalk.length, (j : Nat) < idx →
          p ∉ diffPaths (revwalk.get j)) →
        last_commit (collect_file_history revwalk diffPaths) p
          = some (revwalk.get ⟨idx, hidx⟩)) := by
  constructor
  · rw [last_commit_collect_eq, ← touchEntries_eq_nil_iff diffPaths p 0 revwalk]
    cases ht : touchEntries diffPaths p 0 revwalk with
    | nil => simp
    | cons x xs => simp
  · intro idx hidx hp hprev
    have hhead := touchEntries_head_of_first_touch diffPaths p revwalk 0 idx
      hidx hp hprev
    rw [last_commit_collect_eq]
    cases ht : touchEntries diffPaths p 0 revwalk with
    | nil => rw [ht] at hhead; cases hhead
    | cons x xs =>
      rw [ht] at hhead
      simp only [List.head?_cons, Option.some.injEq] at hhead
      simp [NonEmpty.first, hhead]

/-- C2: a path that was never inserted as an exact path — even when it is a
proper directory prefix of inserted paths — is not found: the lookup
returns none. -/
theorem C2_directory_lookup_none (C : Type) (revwalk : List C)
    (diffPaths : C → List Path) (p : Path)
    (hexact : ∀ c ∈ revwalk, p ∉ diffPaths c)
    (_hdir : ∃ q : Path, (∃ c ∈ revwalk, q ∈ diffPaths c)
      ∧ ∃ rest : List Label, rest ≠ []
        ∧ q.labels.toList = p.labels.toList ++ rest) :
    last_commit (collect_file_history revwalk diffPaths) p = none := by
  rw [last_commit_collect_eq,
    (touchEntries_eq_nil_iff diffPaths p 0 revwalk).mpr hexact]
  rfl

/-! ## Concrete traversals for the C1 and C2 witnesses -/

def srcLab : Label := ⟨['s'], false⟩

def libLab : Label := ⟨['l'], false⟩

def pSrc : Path := Path.new srcLab

def pSrcLib : Path := ⟨⟨srcLab, [libLab]⟩⟩

def pBoth : Path := Path.new ⟨['b'], false⟩

def pReadme : Path := Path.new ⟨['r'], false⟩

def pMissing : Path := Path.new ⟨['m'], false⟩

/-- Touched paths of the chain scenario: commit 30 (the start, rank 0)
touches the readme path and the shared path; commit 10 (rank 2) touches
`s/l` and the shared path; commit 20 touches nothing. -/
def chainDiff : Nat → List Path := fun c =>
  if c = 10 then [pSrcLib, pBoth]
  else if c = 30 then [pReadme, pBoth] else []

/-- Witness for C1: the chain `10 -> 20 -> 30` traversed from 30. The path
touched only by the oldest commit resolves to it; the path touched by both
ends resolves to the traversal start; an untouched path resolves to none. -/
theorem C1_last_commit_witness :
    last_commit (collect_file_history [30, 20, 10] chainDiff) pSrcLib = some 10
    ∧ last_commit (collect_file_history [30, 20, 10] chainDiff) pBoth = some 30
    ∧ last_commit (collect_file_history [30, 20, 10] chainDiff) pMissing
        = none :=
  ⟨(C1_last_commit Nat [30, 20, 10] chainDiff pSrcLib).2 2 (by decide)
      (by decide) (by decide),
   (C1_last_commit Nat [30, 20, 10] chainDiff pBoth).2 0 (by decide)
      (by decide) (by decide),
   (C1_last_commit Nat [30, 20, 10] chainDiff pMissing).1.mpr (by decide)⟩

/-- Witness for C2: only the two-label path `s/l` is ever inserted; looking
up its one-label directory `s` yields none. -/
theorem C2_directory_lookup_none_witness :
    last_commit (collect_file_history [1] (fun _ => [pSrcLib])) pSrc = none :=
  C2_directory_lookup_none Nat [1] (fun _ => [pSrcLib]) pSrc (by decide)
    ⟨pSrcLib, ⟨1, by decide, by decide⟩, [libLab], by decide, by decide⟩

/-! ## Diff translation (src/surf/src/diff/git.rs) -/

/-- The delta kinds of the engine (`git2::Delta`). -/
inductive Delta where
  | unmodified | added | deleted | modified | renamed | copied
  | ignored | untracked | typechange | unreadable | conflicted
  deriving DecidableEq, Repr

/-- The line kinds of the engine (`git2::DiffLineType`) that the
translation inspects. -/
inductive DiffLineType where
  | context | addition | deletion
  | contextEOFNL | addEOFNL | deleteEOFNL
  deriving DecidableEq, Repr

/-- A raw engine diff line (`git2::DiffLine`). -/
structure RawLine where
  origin : DiffLineType
  old_lineno : Option Nat
  new_lineno : Option Nat
  content : List Char
  deriving DecidableEq, Repr

/-- A raw engine hunk (`git2::DiffHunk` with its lines). -/
structure RawHunk where
  header : List Char
  lines : List RawLine
  deriving DecidableEq, Repr

/-- One side of a raw delta (`git2::DiffFile`): its path, as engine path
components, when available, and its binary flag. -/
structure FileInfo where
  path : Option (List (List Char))
  is_binary : Bool
  deriving DecidableEq, Repr

/-- A raw engine delta record, together with the patch the engine returns
for it (`git2::Patch::from_diff`; `none` when no patch data exists). -/
structure DeltaRecord where
  status : Delta
  old_file : FileInfo
  new_file : FileInfo
  patch : Option (List RawHunk)
  deriving DecidableEq, Repr

/-- A translated diff line.

Modelled from the spec: `diff.rs` with the `LineDiff` constructors is not
under `src/`; spec §3: "each tagged Addition(new line number),
Deletion(old line number), or Context(old line number, new line number)". -/
inductive LineDiff where
  | addition : List Char → Nat → LineDiff
  | deletion : List Char → Nat → LineDiff
  | context : List Char → Nat → Nat → LineDiff
  deriving DecidableEq, Repr

/-- A translated hunk: a header line plus its tagged lines (spec §3). -/
structure Hunk where
  header : List Char
  lines : List LineDiff
  deriving DecidableEq, Repr

/-- Trailing-newline status (spec §3): old-side missing, new-side missing
or both missing; the none-missing case is `Option.none`. -/
inductive EofNewLine where
  | oldMissing | newMissing | bothMissing
  deriving DecidableEq, Repr

/-- A modified entry: a path with its hunks and trailing-newline status, or
a binary-modified marker. -/
inductive ModifiedEntry where
  | plain : Path → List Hunk → Option EofNewLine → ModifiedEntry
  | binary : Path → ModifiedEntry
  deriving DecidableEq, Repr

/-- The translated changeset.

Modelled from the spec: `diff.rs` with the `Diff` container and its `add_*`
functions is not under `src/`; spec §3: "disjoint sets of created paths,
deleted paths, moved (old path, new path) pairs, copied (old path, new
path) pairs, and modified paths". The `add_*` operations append one
entry. -/
structure Diff where
  created : List (Path × List Hunk)
  deleted : List (Path × List Hunk)
  moved : List (Path × Path)
  copied : List (Path × Path)
  modified : List ModifiedEntry
  deriving DecidableEq, Repr

namespace Diff

/-- `Diff::new()`: the empty changeset. -/
def new : Diff := ⟨[], [], [], [], []⟩

/-- `Diff::add_created_file`. -/
def add_created_file (d : Diff) (p : Path) (hunks : List Hunk) : Diff :=
  { d with created := d.created ++ [(p, hunks)] }

/-- `Diff::add_deleted_file`. -/
def add_deleted_file (d : Diff) (p : Path) (hunks : List Hunk) : Diff :=
  { d with deleted := d.deleted ++ [(p, hunks)] }

/-- `Diff::add_moved_file`. -/
def add_moved_file (d : Diff) (old_path new_path : Path) : Diff :=
  { d with moved := d.moved ++ [(old_path, new_path)] }

/-- `Diff::add_copied_file`. -/
def add_copied_file (d : Diff) (old_path new_path : Path) : Diff :=
  { d with copied := d.copied ++ [(old_path, new_path)] }

/-- `Diff::add_modified_file`. -/
def add_modified_file (d : Diff) (p : Path) (hunks : List Hunk)
    (eof : Option EofNewLine) : Diff :=
  { d with modified := d.modified ++ [.plain p hunks eof] }

/-- `Diff::add_modified_binary_file`. -/
def add_modified_binary_file (d : Diff) (p : Path) : Diff :=
  { d with modified := d.modified ++ [.binary p] }

/-- The number of path-level entries across all categories. -/
def totalEntries (d : Diff) : Nat :=
  d.created.length + d.deleted.length + d.moved.length + d.copied.length
    + d.modified.length

end Diff

/-- Errors of the diff translation (`error::Diff`,
src/surf/src/diff/git.rs:52-70); the source's `Hunk`/`Line` wrappers around
the invalid-line error are collapsed into `lineInvalid`, and the engine's
opaque `git2::Error` is carried as a numeric code. -/
inductive DiffError where
  | deltaUnhandled : Delta → DiffError
  | fileSystem : FsError → DiffError
  | git : Nat → DiffError
  | lineInvalid : DiffError
  | patchUnavailable : Path → DiffError
  | pathUnavailable : DiffError
  deriving DecidableEq, Repr

/-- `TryFrom<git2::DiffLine> for LineDiff`
(src/surf/src/diff/git.rs:73-84): classify by which side carries a line
number; a line with neither fails with the invalid-line error. -/
def LineDiff.tryFrom (line : RawLine) : Except DiffError LineDiff :=
  match line.old_lineno, line.new_lineno with
  | none, some n => .ok (.addition line.content n)
  | some n, none => .ok (.deletion line.content n)
  | some l, some r => .ok (.context line.content l r)
  | none, none => .error .lineInvalid

/-- Line translation loop of `Hunks::try_from`.

Modelled from the spec: the `TryFrom<git2::Patch> for Hunks` used for
created and deleted deltas is not under `src/`; spec §4.5: "each hunk is
translated line-by-line". -/
def linesTryFrom : List RawLine → Except DiffError (List LineDiff)
  | [] => .ok []
  | l :: ls =>
    match LineDiff.tryFrom l with
    | .error e => .error e
    | .ok d =>
      match linesTryFrom ls with
      | .error e => .error e
      | .ok ds => .ok (d :: ds)

/-- Hunk translation of `Hunks::try_from` (modelled from the spec, see
`linesTryFrom`). -/
def hunksTryFrom : List RawHunk → Except DiffError (List Hunk)
  | [] => .ok []
  | h :: hs =>
    match linesTryFrom h.lines with
    | .error e => .error e
    | .ok ds =>
      match hunksTryFrom hs with
      | .error e => .error e
      | .ok hks => .ok (⟨h.header, ds⟩ :: hks)

/-- The per-hunk line loop of the Modified arm
(src/surf/src/diff/git.rs:157-177): end-of-file marker lines only set the
missing-newline flags and are skipped; every other line is translated. -/
def processHunkLines : List RawLine → Bool → Bool →
    Except DiffError (List LineDiff × Bool × Bool)
  | [], o, n => .ok ([], o, n)
  | l :: ls, o, n =>
    match l.origin with
    | .contextEOFNL => processHunkLines ls true true
    | .addEOFNL => processHunkLines ls true n
    | .deleteEOFNL => processHunkLines ls o true
    | _ =>
      match LineDiff.tryFrom l with
      | .error e => .error e
      | .ok d =>
        match processHunkLines ls o n with
        | .error e => .error e
        | .ok (ds, o2, n2) => .ok (d :: ds, o2, n2)

/-- The hunk loop of the Modified arm (src/surf/src/diff/git.rs:152-179):
the missing-newline flags are threaded across all hunks. -/
def processHunks : List RawHunk → Bool → Bool →
    Except DiffError (List Hunk × Bool × Bool)
  | [], o, n => .ok ([], o, n)
  | h :: hs, o, n =>
    match processHunkLines h.lines o n with
    | .error e => .error e
    | .ok (ds, o2, n2) =>
      match processHunks hs o2 n2 with
      | .error e => .error e
      | .ok (hks, o3, n3) => .ok (⟨h.header, ds⟩ :: hks, o3, n3)

/-- Combining the two missing-newline flags into the four-way status
(src/surf/src/diff/git.rs:180-185). -/
def eofStatus : Bool → Bool → Option EofNewLine
  | true, true => some .bothMissing
  | true, false => some .oldMissing
  | false, true => some .newMissing
  | false, false => none

/-- The loop body of `TryFrom<git2::Diff> for Diff`
(src/surf/src/diff/git.rs:94-226): classify one raw delta record into the
changeset, or fail. -/
def translateDelta (diff : Diff) (delta : DeltaRecord) :
    Except DiffError Diff :=
  match delta.status with
  | .added =>
    match delta.new_file.path with
    | none => .error .pathUnavailable
    | some pb =>
      match Path.fromPathBuf pb with
      | .error e => .error (.fileSystem e)
      | .ok path =>
        match delta.patch with
        | some patch =>
          match hunksTryFrom patch with
          | .error e => .error e
          | .ok hunks => .ok (diff.add_created_file path hunks)
        | none => .ok (diff.add_created_file path [])
  | .deleted =>
    match delta.old_file.path with
    | none => .error .pathUnavailable
    | some pb =>
      match Path.fromPathBuf pb with
      | .error e => .error (.fileSystem e)
      | .ok path =>
        match delta.patch with
        | some patch =>
          match hunksTryFrom patch with
          | .error e => .error e
          | .ok hunks => .ok (diff.add_deleted_file path hunks)
        | none => .ok (diff.add_deleted_file path [])
  | .modified =>
    match delta.new_file.path with
    | none => .error .pathUnavailable
    | some pb =>
      match Path.fromPathBuf pb with
      | .error e => .error (.fileSystem e)
      | .ok path =>
        match delta.patch with
        | some patch =>
          match processHunks patch false false with
          | .error e => .error e
          | .ok (hunks, o, n) =>
            .ok (diff.add_modified_file path hunks (eofStatus o n))
        | none =>
          if delta.new_file.is_binary then
            .ok (diff.add_modified_binary_file path)
          else .error (.patchUnavailable path)
  | .renamed =>
    match delta.old_file.path, delta.new_file.path with
    | none, _ => .error .pathUnavailable
    | _, none => .error .pathUnavailable
    | some opb, some npb =>
      match Path.fromPathBuf opb with
      | .error e => .error (.fileSystem e)
      | .ok old_path =>
        match Path.fromPathBuf npb with
        | .error e => .error (.fileSystem e)
        | .ok new_path => .ok (diff.add_moved_file old_path new_path)
  | .copied =>
    match delta.old_file.path, delta.new_file.path with
    | none, _ => .error .pathUnavailable
    | _, none => .error .pathUnavailable
    | some opb, some npb =>
      match Path.fromPathBuf opb with
      | .error e => .error (.fileSystem e)
      | .ok old_path =>
        match Path.fromPathBuf npb with
        | .error e => .error (.fileSystem e)
        | .ok new_path => .ok (diff.add_copied_file old_path new_path)
  | status => .error (.deltaUnhandled status)

/-- The translation loop over all delta records, stopping at the first
failing record; on failure no diff value is produced. -/
def diffTryFromAux : Diff → List DeltaRecord → Except DiffError Diff
  | d, [] => .ok d
  | d, dr :: drs =>
    match translateDelta d dr with
    | .error e => .error e
    | .ok d2 => diffTryFromAux d2 drs

/-- `TryFrom<git2::Diff> for Diff` (src/surf/src/diff/git.rs:86-230),
starting from the empty changeset. -/
def diffTryFrom (deltas : List DeltaRecord) : Except DiffError Diff :=
  diffTryFromAux Diff.new deltas

/-- The six handled delta kinds of the classification. -/
def handledStatus : Delta → Bool
  | .added | .deleted | .modified | .renamed | .copied => true
  | _ => false

theorem translateDelta_unhandled (acc : Diff) (dr : DeltaRecord)
    (h : handledStatus dr.status = false) :
    translateDelta acc dr = .error (.deltaUnhandled dr.status) := by
  obtain ⟨st, of, nf, pa⟩ := dr
  cases st <;> first
    | rfl
    | (exfalso; simp [handledStatus] at h)

theorem translateDelta_ok_handled {acc acc2 : Diff} {dr : DeltaRecord}
    (h : translateDelta acc dr = .ok acc2) :
    handledStatus dr.status = true := by
  by_cases hs : handledStatus dr.status = true
  · exact hs
  · rw [translateDelta_unhandled acc dr (by simpa using hs)] at h
    cases h

theorem diffTryFromAux_ok_handled (deltas : List DeltaRecord) :
    ∀ (acc d : Diff), diffTryFromAux acc deltas = .ok d →
    ∀ dr ∈ deltas, handledStatus dr.status = true := by
  induction deltas with
  | nil => intro acc d h dr hdr; cases hdr
  | cons dr0 drs ih =>
    intro acc d h dr hdr
    simp only [diffTryFromAux] at h
    cases ht : translateDelta acc dr0 with
    | error e => simp [ht] at h
    | ok acc2 =>
      simp only [ht] at h
      rcases List.mem_cons.mp hdr with rfl | hdr2
      · exact translateDelta_ok_handled ht
      · exact ih acc2 d h dr hdr2

theorem diffTryFromAux_append (acc : Diff) (l1 l2 : List DeltaRecord) :
    diffTryFromAux acc (l1 ++ l2) =
      match diffTryFromAux acc l1 with
      | .error e => .error e
      | .ok d => diffTryFromAux d l2 := by
  induction l1 generalizing acc with
  | nil => rfl
  | cons dr drs ih =>
    simp only [List.cons_append, diffTryFromAux]
    cases ht : translateDelta acc dr with
    | error e => rfl
    | ok d2 => exact ih d2

theorem translateDelta_ok_total {acc acc2 : Diff} {dr : DeltaRecord}
    (h : translateDelta acc dr = .ok acc2) :
    acc2.totalEntries = acc.totalEntries + 1 := by
  cases hst : dr.status with
  | added =>
    simp only [translateDelta, hst] at h
    cases hp : dr.new_file.path with
    | none => simp only [hp] at h; exact Except.noConfusion h
    | some pb =>
      simp only [hp] at h
      cases hfp : Path.fromPathBuf pb with
      | error e => simp only [hfp] at h; exact Except.noConfusion h
      | ok path =>
        simp only [hfp] at h
        cases hpa : dr.patch with
        | none =>
          simp only [hpa] at h
          cases h
          simp only [Diff.add_created_file, Diff.totalEntries,
            List.length_append, List.length_cons, List.length_nil]
          omega
        | some patch =>
          simp only [hpa] at h
          cases hh : hunksTryFrom patch with
          | error e => simp only [hh] at h; exact Except.noConfusion h
          | ok hunks =>
            simp only [hh] at h
            cases h
            simp only [Diff.add_created_file, Diff.totalEntries,
              List.length_append, List.length_cons, List.length_nil]
            omega
  | deleted =>
    simp only [translateDelta, hst] at h
    cases hp : dr.old_file.path with
    | none => simp only [hp] at h; exact Except.noConfusion h
    | some pb =>
      simp only [hp] at h
      cases hfp : Path.fromPathBuf pb with
      | error e => simp only [hfp] at h; exact Except.noConfusion h
      | ok path =>
        simp only [hfp] at h
        cases hpa : dr.patch with
        | none =>
          simp only [hpa] at h
          cases h
          simp only [Diff.add_deleted_file, Diff.totalEntries,
            List.length_append, List.length_cons, List.length_nil]
          omega
        | some patch =>
          simp only [hpa] at h
          cases hh : hunksTryFrom patch with
          | error e => simp only [hh] at h; exact Except.noConfusion h
          | ok hunks =>
            simp only [hh] at h
            cases h
            simp only [Diff.add_deleted_file, Diff.totalEntries,
              List.length_append, List.length_cons, List.length_nil]
            omega
  | modified =>
    simp only [translateDelta, hst] at h
    cases hp : dr.new_file.path with
    | none => simp only [hp] at h; exact Except.noConfusion h
    | some pb =>
      simp only [hp] at h
      cases hfp : Path.fromPathBuf pb with
      | error e => simp only [hfp] at h; exact Except.noConfusion h
      | ok path =>
        simp only [hfp] at h
        cases hpa : dr.patch with
        | none =>
          simp only [hpa] at h
          cases hb : dr.new_file.is_binary with
          | true =>
            rw [hb, if_pos rfl] at h
            cases h
            simp only [Diff.add_modified_binary_file, Diff.totalEntries,
              List.length_append, List.length_cons, List.length_nil]
            omega
          | false =>
            rw [hb, if_neg (by simp)] at h
            exact Except.noConfusion h
        | some patch =>
          simp only [hpa] at h
          cases hh : processHunks patch false false with
          | error e => simp only [hh] at h; exact Except.noConfusion h
          | ok res =>
            obtain ⟨hunks, o, n⟩ := res
            simp only [hh] at h
            cases h
            simp only [Diff.add_modified_file, Diff.totalEntries,
              List.length_append, List.length_cons, List.length_nil]
            omega
  | renamed =>
    simp only [translateDelta, hst] at h
    cases hop : dr.old_file.path with
    | none => simp only [hop] at h; exact Except.noConfusion h
    | some opb =>
      cases hnp : dr.new_file.path with
      | none => simp only [hop, hnp] at h; exact Except.noConfusion h
      | some npb =>
        simp only [hop, hnp] at h
        cases hfo : Path.fromPathBuf opb with
        | error e => simp only [hfo] at h; exact Except.noConfusion h
        | ok old_path =>
          simp only [hfo] at h
          cases hfn : Path.fromPathBuf npb with
          | error e => simp only [hfn] at h; exact Except.noConfusion h
          | ok new_path =>
            simp only [hfn] at h
            cases h
            simp only [Diff.add_moved_file, Diff.totalEntries,
              List.length_append, List.length_cons, List.length_nil]
            omega
  | copied =>
    simp only [translateDelta, hst] at h
    cases hop : dr.old_file.path with
    | none => simp only [hop] at h; exact Except.noConfusion h
    | some opb =>
      cases hnp : dr.new_file.path with
      | none => simp only [hop, hnp] at h; exact Except.noConfusion h
      | some npb =>
        simp only [hop, hnp] at h
        cases hfo : Path.fromPathBuf opb with
        | error e => simp only [hfo] at h; exact Except.noConfusion h
        | ok old_path =>
          simp only [hfo] at h
          cases hfn : Path.fromPathBuf npb with
          | error e => simp only [hfn] at h; exact Except.noConfusion h
          | ok new_path =>
            simp only [hfn] at h
            cases h
            simp only [Diff.add_copied_file, Diff.totalEntries,
              List.length_append, List.length_cons, List.length_nil]
            omega
  | unmodified => simp only [translateDelta, hst] at h; exact Except.noConfusion h
  | ignored => simp only [translateDelta, hst] at h; exact Except.noConfusion h
  | untracked => simp only [translateDelta, hst] at h; exact Except.noConfusion h
  | typechange => simp only [translateDelta, hst] at h; exact Except.noConfusion h
  | unreadable => simp only [translateDelta, hst] at h; exact Except.noConfusion h
  | conflicted => simp only [translateDelta, hst] at h; exact Except.noConfusion h

/-- C8: the translation classifies every raw delta into one of the six
handled kinds — a successful whole-diff translation implies every record
was of a handled kind, and each successful record adds exactly one entry to
exactly one category — while a record of any other kind fails on its own
with `DeltaUnhandled`, and makes the whole diff fail with `DeltaUnhandled`
(no diff value is produced) whenever the records before it translated
successfully. -/
theorem C8_delta_classification :
    (∀ (deltas : List DeltaRecord) (d : Diff), diffTryFrom deltas = .ok d →
      ∀ dr ∈ deltas, handledStatus dr.status = true)
    ∧ (∀ (acc : Diff) (dr : DeltaRecord), handledStatus dr.status = false →
      translateDelta acc dr = .error (.deltaUnhandled dr.status))
    ∧ (∀ (acc acc2 : Diff) (dr : DeltaRecord),
      translateDelta acc dr = .ok acc2 →
      acc2.totalEntries = acc.totalEntries + 1)
    ∧ (∀ (pre post : List DeltaRecord) (dr : DeltaRecord) (d : Diff),
      handledStatus dr.status = false → diffTryFrom pre = .ok d →
      diffTryFrom (pre ++ dr :: post)
        = .error (.deltaUnhandled dr.status)) := by
  refine ⟨fun deltas d h => diffTryFromAux_ok_handled deltas Diff.new d h,
    fun acc dr h => translateDelta_unhandled acc dr h,
    fun acc acc2 dr h => translateDelta_ok_total h, ?_⟩
  intro pre post dr d hun hpre
  unfold diffTryFrom at hpre ⊢
  rw [diffTryFromAux_append, hpre]
  simp only [diffTryFromAux, translateDelta_unhandled d dr hun]

/-- A raw delta of the unhandled `Typechange` kind. -/
def typechangeRec : DeltaRecord := ⟨.typechange, ⟨none, false⟩, ⟨none, false⟩, none⟩

/-- A raw renamed delta from `a` to `b`. -/
def movedRec : DeltaRecord :=
  ⟨.renamed, ⟨some [['a']], false⟩, ⟨some [['b']], false⟩, none⟩

/-- The changeset holding exactly the move translated from `movedRec`. -/
def movedDiff : Diff :=
  Diff.new.add_moved_file (Path.root.push ⟨['a'], false⟩)
    (Path.root.push ⟨['b'], false⟩)

/-- Witness for C8: a `Typechange` delta fails alone and fails a whole diff
with `DeltaUnhandled` after a successfully translated renamed delta, and
the renamed delta adds exactly one entry. -/
theorem C8_delta_classification_witness :
    translateDelta Diff.new typechangeRec
        = .error (.deltaUnhandled .typechange)
    ∧ diffTryFrom [movedRec, typechangeRec]
        = .error (.deltaUnhandled .typechange)
    ∧ movedDiff.totalEntries = Diff.new.totalEntries + 1 :=
  ⟨C8_delta_classification.2.1 Diff.new typechangeRec rfl,
   C8_delta_classification.2.2.2 [movedRec] [] typechangeRec movedDiff rfl rfl,
   C8_delta_classification.2.2.1 Diff.new movedDiff movedRec rfl⟩

end Peruse
